import Mathlib

/-!
Verification of the password-based note encryption subsystem of the `pad`
repository.

The repository contains four client-side encryption variants:

* `src/app/routes/$id.tsx` (top half): PBKDF2 key derivation with the fixed
  salt "fixed-salt-for-derivation" (150000 iterations, SHA-256) followed by
  AES-GCM; records are the JSON string produced by
  `JSON.stringify({iv: Array.from(iv), data: Array.from(ciphertext)})`, and
  `decryptText` wraps everything in one try/catch that rethrows the single
  error "Bad password or corrupted data".
* `src/app/routes/$id.tsx` (bottom half): raw-key AES-CBC; records are
  `btoa(iv) + ":" + btoa(ciphertext)`.
* `src/unnamed/part_000`: the "age" variant, whose payload is plain base64
  of the note text.
* `src/unnamed/part_001`: raw-key AES-GCM where the key string is
  `key.padEnd(32, '0').slice(0, 32)`; records are `btoa(iv ++ ciphertext)`,
  and `decryptText` catches failures and RETURNS the string
  "[Decryption Failed - Invalid Key?] " ++ record.

Strings are modelled as `List Char` (`Str`) and byte arrays as `List Nat`
(`Bytes`).  The WebCrypto primitives are external to the repository and are
modelled by their contracts:

* `TextEncoder`/`TextDecoder` are real UTF-8 encoding/decoding (the decoder
  is lax on invalid input, like the non-fatal `TextDecoder`).
* `btoa`/`atob` are real base64.
* AES-GCM is modelled as an ideal authenticated cipher: the ciphertext is an
  injective, self-delimiting encoding of (key, nonce, plaintext) stored
  twice, so decryption returns the plaintext exactly when the supplied key
  and nonce match and the bytes are untampered, and fails otherwise - the
  guarantee AES-GCM provides (up to negligible forgery probability).
* PBKDF2 is modelled as an ideal KDF: deterministic and injective in the
  password (for the fixed salt/iteration configuration the source uses).
* The AES block permutation (for the AES-CBC variant) is modelled as an
  explicit keyed byte permutation; the CBC chaining, PKCS#7 padding and IV
  handling follow the source.  The properties proved about this variant
  depend only on CBC's structure (its malleability), not on AES internals.

The random nonce drawn by `crypto.getRandomValues` is passed to the
encryption functions as an explicit argument.
-/

deriving instance DecidableEq for Except

namespace Pad

abbrev Bytes := List Nat
abbrev Str := List Char

/-! ### Small list helpers -/

/-- Strip an expected literal prefix from a character stream. -/
def stripL : Str → Str → Option Str
  | [], s => some s
  | _ :: _, [] => none
  | c :: p, d :: s => if c = d then stripL p s else none

/-! ### UTF-8 (model of TextEncoder / TextDecoder) -/

/-- UTF-8 encoding of a single code point, by the standard range analysis. -/
def utf8EncodeChar (n : Nat) : Bytes :=
  if n < 0x80 then [n]
  else if n < 0x800 then [0xC0 + n / 64, 0x80 + n % 64]
  else if n < 0x10000 then [0xE0 + n / 4096, 0x80 + n / 64 % 64, 0x80 + n % 64]
  else [0xF0 + n / 262144, 0x80 + n / 4096 % 64, 0x80 + n / 64 % 64, 0x80 + n % 64]

/-- Model of TextEncoder: UTF-8 bytes of a string. -/
def utf8Encode (s : Str) : Bytes :=
  (s.map (fun c => utf8EncodeChar c.toNat)).flatten

/-- Continuation-byte test of UTF-8 decoding. -/
def isCont (b : Nat) : Prop := 0x80 ≤ b ∧ b < 0xC0

instance (b : Nat) : Decidable (isCont b) := by unfold isCont; infer_instance

/-- Fuel-driven UTF-8 decoding; `fuel` bounds the number of decoded
characters, and callers pass the byte count, which always suffices. -/
def utf8DecodeF : Nat → Bytes → Option Str
  | 0, [] => some []
  | 0, _ :: _ => none
  | _ + 1, [] => some []
  | fuel + 1, b1 :: r =>
    if b1 < 0x80 then (utf8DecodeF fuel r).map (fun t => Char.ofNat b1 :: t)
    else if b1 < 0xC0 then none
    else if b1 < 0xE0 then
      if 1 ≤ r.length ∧ isCont (r.getD 0 0) then
        (utf8DecodeF fuel (r.drop 1)).map (fun t =>
          Char.ofNat ((b1 - 0xC0) * 64 + (r.getD 0 0 - 0x80)) :: t)
      else none
    else if b1 < 0xF0 then
      if 2 ≤ r.length ∧ isCont (r.getD 0 0) ∧ isCont (r.getD 1 0) then
        (utf8DecodeF fuel (r.drop 2)).map (fun t =>
          Char.ofNat ((b1 - 0xE0) * 4096 + (r.getD 0 0 - 0x80) * 64 +
            (r.getD 1 0 - 0x80)) :: t)
      else none
    else if b1 < 0x100 then
      if 3 ≤ r.length ∧ isCont (r.getD 0 0) ∧ isCont (r.getD 1 0) ∧ isCont (r.getD 2 0) then
        (utf8DecodeF fuel (r.drop 3)).map (fun t =>
          Char.ofNat ((b1 - 0xF0) * 262144 + (r.getD 0 0 - 0x80) * 4096 +
            (r.getD 1 0 - 0x80) * 64 + (r.getD 2 0 - 0x80)) :: t)
      else none
    else none

/-- Model of TextDecoder: UTF-8 decoding.  Partial; the claims only exercise
it on byte lists produced by `utf8Encode`. -/
def utf8Decode (l : Bytes) : Option Str := utf8DecodeF l.length l

/-! ### Base64 (model of btoa / atob) -/

/-- The base64 alphabet, indexed 0..63. -/
def b64chr (n : Nat) : Char :=
  if n < 26 then Char.ofNat (65 + n)
  else if n < 52 then Char.ofNat (97 + (n - 26))
  else if n < 62 then Char.ofNat (48 + (n - 52))
  else if n = 62 then '+'
  else '/'

/-- Index of a base64 alphabet character. -/
def b64val (c : Char) : Option Nat :=
  let n := c.toNat
  if 65 ≤ n ∧ n ≤ 90 then some (n - 65)
  else if 97 ≤ n ∧ n ≤ 122 then some (26 + (n - 97))
  else if 48 ≤ n ∧ n ≤ 57 then some (52 + (n - 48))
  else if n = 43 then some 62
  else if n = 47 then some 63
  else none

/-- Model of btoa: base64 encoding of a byte list (3 bytes to 4 chars,
'=' padding). -/
def b64encode : Bytes → Str
  | [] => []
  | [a] => [b64chr (a / 4), b64chr (a % 4 * 16), '=', '=']
  | [a, b] => [b64chr (a / 4), b64chr (a % 4 * 16 + b / 16), b64chr (b % 16 * 4), '=']
  | a :: b :: c :: r =>
    b64chr (a / 4) :: b64chr (a % 4 * 16 + b / 16) ::
      b64chr (b % 16 * 4 + c / 64) :: b64chr (c % 64) :: b64encode r

/-- Model of atob: base64 decoding; fails (as atob throws) on input that is
not well-formed base64. -/
def b64decode : Str → Option Bytes
  | [] => some []
  | c1 :: c2 :: c3 :: c4 :: r =>
    match b64val c1, b64val c2 with
    | some v1, some v2 =>
      if c3 = '=' then
        if c4 = '=' ∧ r = [] then some [v1 * 4 + v2 / 16] else none
      else
        match b64val c3 with
        | some v3 =>
          if c4 = '=' then
            if r = [] then some [v1 * 4 + v2 / 16, v2 % 16 * 16 + v3 / 4] else none
          else
            match b64val c4 with
            | some v4 =>
              (b64decode r).map (fun t =>
                (v1 * 4 + v2 / 16) :: (v2 % 16 * 16 + v3 / 4) :: (v3 % 4 * 64 + v4) :: t)
            | none => none
        | none => none
    | _, _ => none
  | _ => none

/-! ### Self-delimiting length encoding

Used inside the ideal-cipher model to make the (key, nonce, plaintext)
encoding injective while keeping every emitted value a byte (< 256). -/

/-- Little-endian base-128 with a continuation bit; `fuel` only drives the
recursion (any `fuel ≥ n` gives the value). -/
def natBytesAux : Nat → Nat → Bytes
  | 0, n => [n % 128]
  | fuel + 1, n => if n < 128 then [n] else (n % 128 + 128) :: natBytesAux fuel (n / 128)

/-- Self-delimiting byte encoding of a natural number. -/
def natBytes (n : Nat) : Bytes := natBytesAux n n

/-- Read back a `natBytes` value from the front of a byte stream. -/
def readNat : Bytes → Option (Nat × Bytes)
  | [] => none
  | b :: r =>
    if b < 128 then some (b, r)
    else
      match readNat r with
      | some (m, r2) => some (b - 128 + 128 * m, r2)
      | none => none

/-! ### Ideal AES-GCM model -/

/-- Payload of the ideal authenticated cipher: a self-delimiting injective
encoding of the key, the nonce and the plaintext. -/
def gcmBody (key iv pt : Bytes) : Bytes :=
  natBytes key.length ++ key ++ natBytes iv.length ++ iv ++ pt

/-- Model of `crypto.subtle.encrypt` with AES-GCM: the ciphertext determines
(key, nonce, plaintext) and carries its integrity by holding the payload
twice, so that any single-byte change is detectable with certainty. -/
def gcmEncrypt (key iv pt : Bytes) : Bytes :=
  gcmBody key iv pt ++ gcmBody key iv pt

/-- Model of `crypto.subtle.decrypt` with AES-GCM: succeeds with the original
plaintext exactly when the supplied key and nonce match the ones the
ciphertext was produced under and the ciphertext is untampered. -/
def gcmDecrypt (key iv ct : Bytes) : Option Bytes :=
  if ct.take (ct.length / 2) = ct.drop (ct.length / 2) then
    (readNat (ct.take (ct.length / 2))).bind (fun p1 =>
      (readNat (p1.2.drop p1.1)).bind (fun p2 =>
        if p1.2.take p1.1 = key ∧ p2.2.take p2.1 = iv
        then some (p2.2.drop p2.1) else none))
  else none

/-! ### Decimal numerals and the JSON record shape

`JSON.stringify({iv: Array.from(iv), data: Array.from(data)})` produces
exactly the text modelled by `jsonEnc`; `parseRecord` models `JSON.parse`
restricted to this record shape.  Because the source's `decryptText` wraps
parsing and decryption in a single try/catch that collapses every failure
into the one error "Bad password or corrupted data", the only observable
facts about parsing are which strings round-trip and that everything else
errors, which this model reproduces. -/

/-- Decimal digit character. -/
def digitChar (d : Nat) : Char := Char.ofNat (48 + d)

/-- Test for a decimal digit character. -/
def isDig (c : Char) : Bool := 48 ≤ c.toNat && c.toNat ≤ 57

/-- Decimal digits of a positive number, most significant first; `fuel`
drives the recursion (any `fuel ≥ n` gives all digits). -/
def printNumAux : Nat → Nat → Str
  | 0, _ => []
  | fuel + 1, n => if n = 0 then [] else printNumAux fuel (n / 10) ++ [digitChar (n % 10)]

/-- Decimal numeral of a natural number, most significant digit first. -/
def printNum (n : Nat) : Str :=
  if n = 0 then ['0'] else printNumAux n n

/-- Value of a digit string, most significant digit first. -/
def valDigits (ds : Str) : Nat := ds.foldl (fun a c => a * 10 + (c.toNat - 48)) 0

/-- Read a decimal numeral from the front of a character stream. -/
def parseNum (s : Str) : Option (Nat × Str) :=
  let ds := s.takeWhile isDig
  if ds = [] then none else some (valDigits ds, s.dropWhile isDig)

/-- Comma-separated numerals of a nonempty list. -/
def printElems : Bytes → Str
  | [] => []
  | [n] => printNum n
  | n :: rest => printNum n ++ ',' :: printElems rest

/-- JSON array text of a byte list. -/
def printArr (l : Bytes) : Str := '[' :: (printElems l ++ [']'])

/-- Read comma-separated numerals up to a closing bracket; `fuel` bounds the
number of elements (the callers pass the stream length, which suffices). -/
def parseElemsF : Nat → Str → Option (Bytes × Str)
  | 0, _ => none
  | fuel + 1, s =>
    match parseNum s with
    | none => none
    | some (n, r) =>
      match r with
      | ']' :: r2 => some ([n], r2)
      | ',' :: r2 =>
        match parseElemsF fuel r2 with
        | some (l, r3) => some (n :: l, r3)
        | none => none
      | _ => none

/-- Read a JSON array of numbers from the front of a character stream. -/
def parseArr : Str → Option (Bytes × Str)
  | '[' :: ']' :: r => some ([], r)
  | '[' :: r => parseElemsF (r.length + 1) r
  | _ => none

/-- Record text of the PBKDF2+AES-GCM variant:
`JSON.stringify({iv: Array.from(iv), data: Array.from(data)})`. -/
def jsonEnc (iv data : Bytes) : Str :=
  ("\x7b\"iv\":").toList ++ printArr iv ++ (",\"data\":").toList ++
    printArr data ++ ("\x7d").toList

/-- Model of `JSON.parse` restricted to the record shape: recover the `iv`
and `data` fields or fail. -/
def parseRecord (s : Str) : Option (Bytes × Bytes) :=
  (stripL (("\x7b\"iv\":").toList) s).bind (fun r1 =>
    (parseArr r1).bind (fun p1 =>
      (stripL ((",\"data\":").toList) p1.2).bind (fun r3 =>
        (parseArr r3).bind (fun p2 =>
          (stripL (("\x7d").toList) p2.2).bind (fun r5 =>
            if r5 = [] then some (p1.1, p2.1) else none)))))

/-! ### Variant 1: PBKDF2 + AES-GCM (`src/app/routes/$id.tsx`, top half) -/

/-- The single error message of this variant's `decryptText`:
`throw new Error("Bad password or corrupted data")`. -/
def badMsg : Str := ("Bad password or corrupted data").toList

/-- Model of `deriveKey`: PBKDF2 over the password with the fixed salt
"fixed-salt-for-derivation", 150000 iterations and SHA-256, taken as an
ideal KDF - deterministic, and injective in the password for this fixed
configuration.  The configuration is part of the key value. -/
def deriveKey (password : Str) : Bytes :=
  utf8Encode password ++ utf8Encode (("fixed-salt-for-derivation").toList) ++
    natBytes 150000

/-- Model of `encryptText` (PBKDF2+AES-GCM variant); `iv` is the 12-byte
output of `crypto.getRandomValues`, passed explicitly. -/
def encryptText (password plaintext : Str) (iv : Bytes) : Str :=
  jsonEnc iv (gcmEncrypt (deriveKey password) iv (utf8Encode plaintext))

/-- Model of `decryptText` (PBKDF2+AES-GCM variant): every failure inside
the try block (record parsing, authenticated decryption, text decoding)
surfaces as the single error `badMsg`. -/
def decryptText (password : Str) (cipherJson : Str) : Except Str Str :=
  ((parseRecord cipherJson).bind (fun p =>
    (gcmDecrypt (deriveKey password) p.1 p.2).bind (fun pt =>
      utf8Decode pt))).elim (Except.error badMsg) Except.ok

/-- Model of the component's `attemptUnlock` loop body: decrypt every note
in order, aborting the whole batch on the first failure (the try/catch
wraps the entire for-loop). -/
def attemptUnlock (password : Str) (notes : List (Str × Str)) :
    Except Str (List (Str × Str)) :=
  notes.mapM (fun n => (decryptText password n.2).map (fun d => (n.1, d)))

/-- Model of `attemptUnlock` including the catch branch, which replaces any
error with the surfaced message "Incorrect password" and leaves no note
decrypted. -/
def attemptUnlockState (password : Str) (notes : List (Str × Str)) :
    Except Str (List (Str × Str)) :=
  match attemptUnlock password notes with
  | Except.ok l => Except.ok l
  | Except.error _ => Except.error (("Incorrect password").toList)

/-! ### Variant 2: raw-key AES-GCM (`src/unnamed/part_001`) -/

/-- The pad-and-truncate step `key.padEnd(32, '0').slice(0, 32)`. -/
def padKey32 (k : Str) : Str :=
  (k ++ List.replicate (32 - k.length) '0').take 32

/-- Key bytes of the raw-key variant: UTF-8 of the padded key. -/
def keyBytes1 (k : Str) : Bytes := utf8Encode (padKey32 k)

/-- The string returned by this variant's `decryptText` on failure, before
the raw record is appended. -/
def failMarker : Str := ("[Decryption Failed - Invalid Key?] ").toList

/-- Model of `encryptText` (raw-key AES-GCM variant, `src/unnamed/part_001`):
an empty key returns the text unchanged; otherwise the record is
`btoa(iv ++ ciphertext)`. -/
def encryptText1 (text key : Str) (iv : Bytes) : Str :=
  if key = [] then text
  else b64encode (iv ++ gcmEncrypt (keyBytes1 key) iv (utf8Encode text))

/-- Model of `decryptText` (raw-key AES-GCM variant): an empty key returns
the input unchanged; any failure is caught and the function RETURNS
`failMarker ++ input` instead of signalling. -/
def decryptText1 (encryptedText key : Str) : Str :=
  if key = [] then encryptedText
  else
    match b64decode encryptedText with
    | none => failMarker ++ encryptedText
    | some combined =>
      match gcmDecrypt (keyBytes1 key) (combined.take 12) (combined.drop 12) with
      | none => failMarker ++ encryptedText
      | some pt =>
        match utf8Decode pt with
        | none => failMarker ++ encryptedText
        | some t => t

/-- Model of `handleDecryptAll` (`src/unnamed/part_001`): every note is
decrypted independently (the inner catch of `decryptText` means the loop
never aborts), keeping the note id, the per-note result, and the
`isEncrypted` flag `note.text !== decryptedText`.  The stored notes are an
input only; nothing is written back. -/
def handleDecryptAll (key : Str) (notes : List (Str × Str)) :
    List (Str × Str × Bool) :=
  notes.map (fun n =>
    let d := decryptText1 n.2 key
    (n.1, d, decide (n.2 ≠ d)))

/-! ### Variant 3: raw-key AES-CBC (`src/app/routes/$id.tsx`, bottom half) -/

/-- Model of `importKey` for AES-CBC: WebCrypto accepts a raw AES key only
when it is 16, 24 or 32 bytes long. -/
def importKeyCbc (password : Str) : Option Bytes :=
  let kb := utf8Encode password
  if kb.length = 16 ∨ kb.length = 24 ∨ kb.length = 32 then some kb else none

/-- Key mixing value of the modelled AES block permutation. -/
def ksum (key : Bytes) : Nat := (key.foldl (fun a b => a + b) 0) % 256

/-- Modelled AES block permutation: a keyed byte permutation. -/
def eBlk (key : Bytes) (blk : Bytes) : Bytes :=
  blk.map (fun b => (b + ksum key) % 256)

/-- Inverse of the modelled block permutation. -/
def dBlk (key : Bytes) (blk : Bytes) : Bytes :=
  blk.map (fun b => (b + (256 - ksum key)) % 256)

/-- Bytewise XOR of two blocks. -/
def xorB (a b : Bytes) : Bytes := List.zipWith (fun x y => x ^^^ y) a b

/-- Split into 16-byte blocks (`fuel` bounds the recursion; callers pass the
list length). -/
def toBlocksF : Nat → Bytes → List Bytes
  | 0, _ => []
  | _ + 1, [] => []
  | fuel + 1, l => l.take 16 :: toBlocksF fuel (l.drop 16)

/-- PKCS#7 padding to the 16-byte block size. -/
def pkcs7pad (pt : Bytes) : Bytes :=
  let padLen := 16 - pt.length % 16
  pt ++ List.replicate padLen padLen

/-- PKCS#7 unpadding; fails (as WebCrypto decryption throws) when the
padding is invalid. -/
def pkcs7unpad (p : Bytes) : Option Bytes :=
  let n := p.getLastD 0
  if n = 0 ∨ 16 < n ∨ p.length < n then none
  else if (p.drop (p.length - n)).all (fun b => b = n) then
    some (p.take (p.length - n))
  else none

/-- CBC encryption chaining over padded blocks. -/
def cbcChain (key : Bytes) (prev : Bytes) : List Bytes → List Bytes
  | [] => []
  | b :: rest =>
    let c := eBlk key (xorB b prev)
    c :: cbcChain key c rest

/-- CBC decryption chaining. -/
def cbcUnchain (key : Bytes) (prev : Bytes) : List Bytes → List Bytes
  | [] => []
  | c :: rest => xorB (dBlk key c) prev :: cbcUnchain key c rest

/-- Model of `crypto.subtle.encrypt` with AES-CBC. -/
def cbcEncrypt (key iv pt : Bytes) : Bytes :=
  (cbcChain key iv (toBlocksF (pkcs7pad pt).length (pkcs7pad pt))).flatten

/-- Model of `crypto.subtle.decrypt` with AES-CBC: the only integrity check
CBC performs is PKCS#7 padding validation. -/
def cbcDecrypt (key iv ct : Bytes) : Option Bytes :=
  if ct.length = 0 ∨ ct.length % 16 ≠ 0 then none
  else pkcs7unpad (cbcUnchain key iv (toBlocksF ct.length ct)).flatten

/-- Split a string at its first ':' (model of the destructuring of
`text.split(":")` into its first two fields). -/
def splitColon : Str → Option (Str × Str)
  | [] => none
  | c :: r =>
    if c = ':' then some ([], r)
    else (splitColon r).map (fun p => (c :: p.1, p.2))

/-- Model of `encryptText` (AES-CBC variant): the record is
`btoa(iv) + ":" + btoa(ciphertext)`; fails when the raw key import fails. -/
def encryptTextC (text password : Str) (iv : Bytes) : Option Str :=
  (importKeyCbc password).map (fun key =>
    b64encode iv ++ ':' :: b64encode (cbcEncrypt key iv (utf8Encode text)))

/-- Model of `decryptText` (AES-CBC variant): no try/catch in the source,
so any failure propagates (`none`); on success the decoded plaintext is
returned. -/
def decryptTextC (text password : Str) : Option Str := do
  let parts ← splitColon text
  let iv ← b64decode parts.1
  let ct ← b64decode parts.2
  let key ← importKeyCbc password
  let pt ← cbcDecrypt key iv ct
  utf8Decode pt

/-! ### Variant 4: the "age" armor (`src/unnamed/part_000`) -/

/-- The hardcoded age public key of the source. -/
def agePub : Str :=
  ("age1hxapl72mrxyuxq7ks4h52tggsajq97mycz2r0520327v5hqgd33q553djp").toList

/-- Fixed text preceding the payload in every age record: header line plus
recipient line plus blank line. -/
def agePre : Str :=
  ("-----BEGIN AGE ENCRYPTED FILE-----\n").toList ++
    ("Recipient: ").toList ++ agePub ++ ("\n\n").toList

/-- Fixed text following the payload in every age record. -/
def ageFooter : Str := ("\n-----END AGE ENCRYPTED FILE-----").toList

/-- Model of `encryptWithAge`: the payload is plain base64 of the UTF-8
bytes of the text - no key material enters the computation. -/
def encryptWithAge (text : Str) : Str :=
  agePre ++ b64encode (utf8Encode text) ++ ageFooter

/-- Extract the payload of an age record: drop the fixed leading text and
the fixed footer. -/
def agePayload (s : Str) : Str :=
  (s.drop agePre.length).take ((s.drop agePre.length).length - ageFooter.length)

/-! ### Concrete values used by witnesses and counterexamples -/

/-- A concrete 12-byte nonce (all zero), standing for one draw of
`crypto.getRandomValues(new Uint8Array(12))`. -/
def ivZ : Bytes := List.replicate 12 0

/-- A second concrete 12-byte nonce, differing from `ivZ`. -/
def ivO : Bytes := 1 :: List.replicate 11 0

/-- A third concrete 12-byte nonce. -/
def ivF : Bytes := List.replicate 12 252

/-- A concrete 16-byte CBC IV (all zero). -/
def iv16Z : Bytes := List.replicate 16 0

/-- `iv16Z` with its first byte flipped: a single-byte modification of the
record's nonce field. -/
def iv16T : Bytes := 1 :: List.replicate 15 0

/-- A concrete 16-character (16-byte) password accepted by the AES-CBC
variant's raw key import. -/
def pwC : Str := ("0123456789abcdef").toList

/-! ### Parser / printer round-trip lemmas -/

theorem stripL_append (p r : Str) : stripL p (p ++ r) = some r := by
  induction p with
  | nil => rfl
  | cons c t ih => simp [stripL, ih]

theorem stripL_self (p : Str) : stripL p p = some [] := by
  have := stripL_append p []
  simpa using this

theorem takeWhile_append_of_all {p : Char → Bool} {l : Str} (r : Str)
    (h : ∀ c ∈ l, p c = true) : (l ++ r).takeWhile p = l ++ r.takeWhile p := by
  induction l with
  | nil => rfl
  | cons c t ih =>
    have hc : p c = true := h c (by simp)
    simp [List.takeWhile, hc, ih (fun x hx => h x (by simp [hx]))]

theorem dropWhile_append_of_all {p : Char → Bool} {l : Str} (r : Str)
    (h : ∀ c ∈ l, p c = true) : (l ++ r).dropWhile p = r.dropWhile p := by
  induction l with
  | nil => rfl
  | cons c t ih =>
    have hc : p c = true := h c (by simp)
    simp [List.dropWhile, hc, ih (fun x hx => h x (by simp [hx]))]

theorem digitChar_toNat : ∀ d, d < 10 → (digitChar d).toNat = 48 + d := by decide

theorem isDig_digitChar : ∀ d, d < 10 → isDig (digitChar d) = true := by decide

theorem printNumAux_zero (fuel : Nat) : printNumAux fuel 0 = [] := by
  cases fuel <;> simp [printNumAux]

theorem printNumAux_eq_digits (fuel : Nat) : ∀ n, n ≤ fuel → n ≠ 0 →
    printNumAux fuel n = (Nat.digits 10 n).reverse.map digitChar := by
  induction fuel with
  | zero => intro n hn h0; omega
  | succ f ih =>
    intro n hn h0
    rw [show printNumAux (f + 1) n =
        printNumAux f (n / 10) ++ [digitChar (n % 10)] from by
      rw [printNumAux, if_neg h0]]
    rw [Nat.digits_def' (by norm_num : 1 < 10) (by omega : 0 < n)]
    simp only [List.reverse_cons, List.map_append, List.map_cons, List.map_nil]
    by_cases hq : n / 10 = 0
    · rw [hq, printNumAux_zero]
      simp
    · rw [ih (n / 10) (by omega) hq]

theorem printNum_eq_digits (n : Nat) :
    printNum n = if n = 0 then ['0'] else (Nat.digits 10 n).reverse.map digitChar := by
  unfold printNum
  by_cases h : n = 0
  · rw [if_pos h, if_pos h]
  · rw [if_neg h, if_neg h, printNumAux_eq_digits n n (Nat.le_refl n) h]

theorem printNum_ne_nil (n : Nat) : printNum n ≠ [] := by
  rw [printNum_eq_digits]
  split
  · simp
  · rename_i h
    have : Nat.digits 10 n ≠ [] := Nat.digits_ne_nil_iff_ne_zero.mpr h
    simpa using this

theorem printNum_all_dig (n : Nat) : ∀ c ∈ printNum n, isDig c = true := by
  intro c hc
  rw [printNum_eq_digits] at hc
  split at hc
  · simp at hc
    subst hc
    decide
  · simp at hc
    obtain ⟨d, hd, rfl⟩ := hc
    exact isDig_digitChar d (Nat.digits_lt_base (by norm_num) hd)

theorem foldl_digits : ∀ (L : List Nat), (∀ d ∈ L, d < 10) → ∀ acc : Nat,
    (L.reverse.map digitChar).foldl (fun a c => a * 10 + (c.toNat - 48)) acc =
      acc * 10 ^ L.length + Nat.ofDigits 10 L := by
  intro L
  induction L with
  | nil => intro _ acc; simp
  | cons d t ih =>
    intro h acc
    have hd : d < 10 := h d (by simp)
    have ht : ∀ x ∈ t, x < 10 := fun x hx => h x (by simp [hx])
    simp only [List.reverse_cons, List.map_append, List.foldl_append, ih ht acc,
      List.map_cons, List.map_nil, List.foldl_cons, List.foldl_nil]
    rw [digitChar_toNat d hd, Nat.ofDigits_cons]
    simp only [List.length_cons, pow_succ]
    have hd48 : 48 + d - 48 = d := by omega
    rw [hd48]
    ring

theorem valDigits_printNum (n : Nat) : valDigits (printNum n) = n := by
  rw [printNum_eq_digits]
  unfold valDigits
  split
  · rename_i h; subst h; decide
  · rw [foldl_digits (Nat.digits 10 n) (fun d hd => Nat.digits_lt_base (by norm_num) hd) 0]
    simp [Nat.ofDigits_digits]

theorem parseNum_printNum (n : Nat) (c : Char) (rest : Str) (hc : isDig c = false) :
    parseNum (printNum n ++ c :: rest) = some (n, c :: rest) := by
  unfold parseNum
  rw [takeWhile_append_of_all _ (printNum_all_dig n),
    dropWhile_append_of_all _ (printNum_all_dig n)]
  simp [List.takeWhile, List.dropWhile, hc, printNum_ne_nil n, valDigits_printNum n]

theorem parseElemsF_printElems (l : Bytes) : ∀ (rest : Str) (fuel : Nat), l ≠ [] →
    l.length ≤ fuel → parseElemsF fuel (printElems l ++ ']' :: rest) = some (l, rest) := by
  induction l with
  | nil => intro _ _ h _; exact absurd rfl h
  | cons n t ih =>
    intro rest fuel _ hf
    cases fuel with
    | zero => simp at hf
    | succ f =>
      cases t with
      | nil =>
        simp only [printElems, parseElemsF,
          parseNum_printNum n ']' rest (by decide)]
      | cons m r =>
        have hstep : printElems (n :: m :: r) ++ ']' :: rest =
            printNum n ++ ',' :: (printElems (m :: r) ++ ']' :: rest) := by
          simp [printElems]
        rw [hstep]
        simp only [parseElemsF, parseNum_printNum n ',' _ (by decide)]
        rw [ih rest f (by simp) (by simpa using hf)]

theorem length_le_printElems (l : Bytes) : l.length ≤ (printElems l).length := by
  induction l with
  | nil => simp [printElems]
  | cons n t ih =>
    cases t with
    | nil =>
      have := printNum_ne_nil n
      simp only [printElems, List.length_cons, List.length_nil]
      cases h : printNum n with
      | nil => exact absurd h this
      | cons a b => simp [h]
    | cons m r =>
      have := printNum_ne_nil n
      simp only [printElems, List.length_append, List.length_cons]
      cases h : printNum n with
      | nil => exact absurd h this
      | cons a b =>
        have : (m :: r).length ≤ (printElems (m :: r)).length := ih
        simp [h] at this ⊢
        omega

theorem parseArr_printArr (l : Bytes) (rest : Str) :
    parseArr (printArr l ++ rest) = some (l, rest) := by
  cases l with
  | nil => simp [printArr, printElems, parseArr]
  | cons n t =>
    have hne : printNum n ≠ [] := printNum_ne_nil n
    have halldig : ∀ c ∈ printNum n, isDig c = true := printNum_all_dig n
    have hhead : ∃ c cs, printNum n = c :: cs ∧ isDig c = true := by
      cases h : printNum n with
      | nil => exact absurd h hne
      | cons c cs => exact ⟨c, cs, rfl, halldig c (by simp [h])⟩
    obtain ⟨c, cs, hpn, hcd⟩ := hhead
    have hcne : c ≠ ']' := by
      intro h
      subst h
      simp [isDig] at hcd
    have hstream : printArr (n :: t) ++ rest =
        '[' :: (printElems (n :: t) ++ ']' :: rest) := by
      simp [printArr]
    have hshape : printElems (n :: t) ++ ']' :: rest =
        c :: (cs ++ (printElems (n :: t)).drop (printNum n).length ++ ']' :: rest) := by
      cases t with
      | nil => simp [printElems, hpn]
      | cons m r => simp [printElems, hpn]
    rw [hstream, hshape]
    show parseArr ('[' :: c :: _) = _
    rw [show parseArr ('[' :: c :: (cs ++ (printElems (n :: t)).drop (printNum n).length ++ ']' :: rest)) =
      if c = ']' then some ([], cs ++ (printElems (n :: t)).drop (printNum n).length ++ ']' :: rest)
      else parseElemsF ((c :: (cs ++ (printElems (n :: t)).drop (printNum n).length ++ ']' :: rest)).length + 1)
        (c :: (cs ++ (printElems (n :: t)).drop (printNum n).length ++ ']' :: rest)) from by
        cases Decidable.em (c = ']') with
        | inl h => subst h; simp [parseArr]
        | inr h => simp [parseArr, h]]
    rw [if_neg hcne, ← hshape]
    refine parseElemsF_printElems (n :: t) rest _ (by simp) ?_
    have h1 : (n :: t).length ≤ (printElems (n :: t)).length := length_le_printElems _
    simp only [List.length_append, List.length_cons] at h1 ⊢
    omega

theorem parseRecord_jsonEnc (iv data : Bytes) :
    parseRecord (jsonEnc iv data) = some (iv, data) := by
  unfold parseRecord jsonEnc
  rw [show ("\x7b\"iv\":").toList ++ printArr iv ++ (",\"data\":").toList ++
      printArr data ++ ("\x7d").toList =
      ("\x7b\"iv\":").toList ++ (printArr iv ++ ((",\"data\":").toList ++
      (printArr data ++ ("\x7d").toList))) from by simp]
  rw [stripL_append]
  simp only [Option.some_bind, parseArr_printArr, stripL_append, stripL_self]
  simp

/-! ### Length-encoding lemmas -/

theorem readNat_natBytesAux (fuel : Nat) : ∀ (n : Nat) (rest : Bytes), n ≤ fuel →
    readNat (natBytesAux fuel n ++ rest) = some (n, rest) := by
  induction fuel with
  | zero =>
    intro n rest hn
    have : n = 0 := by omega
    subst this
    simp [natBytesAux, readNat]
  | succ f ih =>
    intro n rest hn
    by_cases h : n < 128
    · simp [natBytesAux, readNat, h]
    · have hrec : readNat (natBytesAux f (n / 128) ++ rest) = some (n / 128, rest) :=
        ih (n / 128) rest (by omega)
      simp only [natBytesAux, if_neg h, List.cons_append, readNat]
      rw [if_neg (by omega), hrec]
      show some (n % 128 + 128 - 128 + 128 * (n / 128), rest) = some (n, rest)
      have heq : n % 128 + 128 - 128 + 128 * (n / 128) = n := by omega
      rw [heq]

theorem readNat_natBytes (n : Nat) (rest : Bytes) :
    readNat (natBytes n ++ rest) = some (n, rest) := by
  exact readNat_natBytesAux n n rest (Nat.le_refl n)

theorem natBytesAux_lt (fuel : Nat) : ∀ (n : Nat), ∀ b ∈ natBytesAux fuel n, b < 256 := by
  induction fuel with
  | zero => intro n b hb; simp [natBytesAux] at hb; omega
  | succ f ih =>
    intro n b hb
    by_cases h : n < 128
    · simp [natBytesAux, h] at hb; omega
    · simp only [natBytesAux, if_neg h, List.mem_cons] at hb
      rcases hb with hb | hb
      · omega
      · exact ih _ b hb

theorem natBytes_lt (n : Nat) : ∀ b ∈ natBytes n, b < 256 :=
  natBytesAux_lt n n

/-! ### Ideal AES-GCM lemmas -/

/-- Decryption of an ideal ciphertext succeeds exactly when the supplied key
and nonce are the ones it was produced under, and then returns the original
plaintext: the AES-GCM authenticated-decryption contract. -/
theorem gcmDecrypt_gcmEncrypt (key iv key2 iv2 pt : Bytes) :
    gcmDecrypt key2 iv2 (gcmEncrypt key iv pt) =
      if key = key2 ∧ iv = iv2 then some pt else none := by
  unfold gcmDecrypt gcmEncrypt
  have hL : (gcmBody key iv pt ++ gcmBody key iv pt).length / 2 =
      (gcmBody key iv pt).length := by
    simp only [List.length_append]
    omega
  rw [hL, List.take_left, List.drop_left, if_pos rfl]
  have hbody : gcmBody key iv pt =
      natBytes key.length ++ (key ++ (natBytes iv.length ++ (iv ++ pt))) := by
    simp [gcmBody]
  rw [hbody, readNat_natBytes]
  simp only [Option.some_bind]
  rw [List.drop_left, readNat_natBytes]
  simp only [Option.some_bind]
  rw [List.take_left, List.take_left, List.drop_left]

theorem length_gcmEncrypt (key iv pt : Bytes) :
    (gcmEncrypt key iv pt).length = 2 * (gcmBody key iv pt).length := by
  simp [gcmEncrypt, List.length_append]
  omega

/-- A list with one element overwritten by a different value is a different
list. -/
theorem set_ne_of_ne {l : Bytes} {i x : Nat} (hi : i < l.length)
    (hx : x ≠ l.getD i 0) : l.set i x ≠ l := by
  intro h
  apply hx
  have h1 : (l.set i x).getD i 0 = x := by
    rw [List.getD_eq_getElem _ 0 (by simpa using hi)]
    exact List.getElem_set_self _
  rw [h] at h1
  exact h1.symm

/-- Tamper detection of the ideal cipher: overwriting any single byte of a
ciphertext with a different value makes authenticated decryption fail. -/
theorem gcm_tamper (key iv pt : Bytes) (i x : Nat)
    (hi : i < (gcmEncrypt key iv pt).length)
    (hx : x ≠ (gcmEncrypt key iv pt).getD i 0) :
    gcmDecrypt key iv ((gcmEncrypt key iv pt).set i x) = none := by
  set b := gcmBody key iv pt with hb
  have hct : gcmEncrypt key iv pt = b ++ b := rfl
  rw [hct] at hi hx ⊢
  have hlen : (b ++ b).length = 2 * b.length := by simp [List.length_append]; omega
  by_cases hcase : i < b.length
  · have hset : (b ++ b).set i x = b.set i x ++ b := List.set_append_left i x hcase
    have hgd : (b ++ b).getD i 0 = b.getD i 0 := List.getD_append b b 0 i hcase
    rw [hgd] at hx
    have hne : b.set i x ≠ b := set_ne_of_ne hcase hx
    unfold gcmDecrypt
    rw [hset]
    have hL : (b.set i x ++ b).length / 2 = b.length := by
      simp only [List.length_append, List.length_set]
      omega
    rw [hL]
    have hsl : (b.set i x).length = b.length := by simp
    have htake : (b.set i x ++ b).take b.length = b.set i x := by
      rw [← hsl, List.take_left]
    have hdrop : (b.set i x ++ b).drop b.length = b := by
      rw [← hsl, List.drop_left]
    rw [htake, hdrop, if_neg hne]
  · have hge : b.length ≤ i := by omega
    have hset : (b ++ b).set i x = b ++ b.set (i - b.length) x :=
      List.set_append_right i x hge
    have hi2 : i - b.length < b.length := by
      rw [hlen] at hi; omega
    have hgd : (b ++ b).getD i 0 = b.getD (i - b.length) 0 :=
      List.getD_append_right b b 0 i hge
    rw [hgd] at hx
    have hne : b ≠ b.set (i - b.length) x := fun h => set_ne_of_ne hi2 hx h.symm
    unfold gcmDecrypt
    rw [hset]
    have hL : (b ++ b.set (i - b.length) x).length / 2 = b.length := by
      simp only [List.length_append, List.length_set]
      omega
    rw [hL, List.take_left, List.drop_left, if_neg hne]

theorem gcmEncrypt_lt (key iv pt : Bytes) (hk : ∀ b ∈ key, b < 256)
    (hiv : ∀ b ∈ iv, b < 256) (hpt : ∀ b ∈ pt, b < 256) :
    ∀ b ∈ gcmEncrypt key iv pt, b < 256 := by
  intro b hb
  simp only [gcmEncrypt, gcmBody, List.mem_append] at hb
  have hcases : b ∈ natBytes key.length ∨ b ∈ key ∨ b ∈ natBytes iv.length ∨
      b ∈ iv ∨ b ∈ pt := by tauto
  rcases hcases with h | h | h | h | h
  exacts [natBytes_lt _ b h, hk b h, natBytes_lt _ b h, hiv b h, hpt b h]

/-! ### UTF-8 lemmas -/

theorem char_toNat_lt (c : Char) : c.toNat < 1114112 := by
  have h := c.valid
  simp only [Char.toNat]
  rcases h with h | h <;> omega

theorem utf8DecodeF_encodeChar (n : Nat) (hv : n < 1114112) (fuel : Nat) (rest : Bytes) :
    utf8DecodeF (fuel + 1) (utf8EncodeChar n ++ rest) =
      (utf8DecodeF fuel rest).map (fun t => Char.ofNat n :: t) := by
  by_cases h1 : n < 0x80
  · have enc : utf8EncodeChar n = [n] := by
      unfold utf8EncodeChar; rw [if_pos h1]
    rw [enc, List.cons_append, List.nil_append, utf8DecodeF, if_pos h1]
  · by_cases h2 : n < 0x800
    · have enc : utf8EncodeChar n = [0xC0 + n / 64, 0x80 + n % 64] := by
        unfold utf8EncodeChar; rw [if_neg h1, if_pos h2]
      have e1 : ¬ (0xC0 + n / 64 < 0x80) := by omega
      have e2 : ¬ (0xC0 + n / 64 < 0xC0) := by omega
      have e3 : 0xC0 + n / 64 < 0xE0 := by omega
      rw [enc, List.cons_append, List.cons_append, List.nil_append,
        utf8DecodeF, if_neg e1, if_neg e2, if_pos e3]
      simp only [List.getD_cons_zero, List.length_cons, List.drop_succ_cons,
        List.drop_zero]
      rw [if_pos (by unfold isCont; omega)]
      have hval : (0xC0 + n / 64 - 0xC0) * 64 + (0x80 + n % 64 - 0x80) = n := by omega
      rw [hval]
    · by_cases h3 : n < 0x10000
      · have enc : utf8EncodeChar n =
            [0xE0 + n / 4096, 0x80 + n / 64 % 64, 0x80 + n % 64] := by
          unfold utf8EncodeChar; rw [if_neg h1, if_neg h2, if_pos h3]
        have e1 : ¬ (0xE0 + n / 4096 < 0x80) := by omega
        have e2 : ¬ (0xE0 + n / 4096 < 0xC0) := by omega
        have e3 : ¬ (0xE0 + n / 4096 < 0xE0) := by omega
        have e4 : 0xE0 + n / 4096 < 0xF0 := by omega
        rw [enc, List.cons_append, List.cons_append, List.cons_append, List.nil_append,
          utf8DecodeF, if_neg e1, if_neg e2, if_neg e3, if_pos e4]
        simp only [List.getD_cons_zero, List.getD_cons_succ, List.length_cons,
          List.drop_succ_cons, List.drop_zero]
        rw [if_pos (by unfold isCont; omega)]
        have hval : (0xE0 + n / 4096 - 0xE0) * 4096 + (0x80 + n / 64 % 64 - 0x80) * 64 +
            (0x80 + n % 64 - 0x80) = n := by omega
        rw [hval]
      · have enc : utf8EncodeChar n =
            [0xF0 + n / 262144, 0x80 + n / 4096 % 64, 0x80 + n / 64 % 64, 0x80 + n % 64] := by
          unfold utf8EncodeChar; rw [if_neg h1, if_neg h2, if_neg h3]
        have e1 : ¬ (0xF0 + n / 262144 < 0x80) := by omega
        have e2 : ¬ (0xF0 + n / 262144 < 0xC0) := by omega
        have e3 : ¬ (0xF0 + n / 262144 < 0xE0) := by omega
        have e4 : ¬ (0xF0 + n / 262144 < 0xF0) := by omega
        have e5 : 0xF0 + n / 262144 < 0x100 := by omega
        rw [enc, List.cons_append, List.cons_append, List.cons_append, List.cons_append,
          List.nil_append, utf8DecodeF, if_neg e1, if_neg e2, if_neg e3, if_neg e4,
          if_pos e5]
        simp only [List.getD_cons_zero, List.getD_cons_succ, List.length_cons,
          List.drop_succ_cons, List.drop_zero]
        rw [if_pos (by unfold isCont; omega)]
        have hval : (0xF0 + n / 262144 - 0xF0) * 262144 +
            (0x80 + n / 4096 % 64 - 0x80) * 4096 +
            (0x80 + n / 64 % 64 - 0x80) * 64 + (0x80 + n % 64 - 0x80) = n := by omega
        rw [hval]

theorem utf8DecodeF_nil (fuel : Nat) : utf8DecodeF fuel [] = some [] := by
  cases fuel <;> rfl

theorem utf8DecodeF_utf8Encode (s : Str) : ∀ fuel, s.length ≤ fuel →
    utf8DecodeF fuel (utf8Encode s) = some s := by
  induction s with
  | nil => intro fuel _; exact utf8DecodeF_nil fuel
  | cons c t ih =>
    intro fuel hf
    cases fuel with
    | zero => simp at hf
    | succ f =>
      have henc : utf8Encode (c :: t) = utf8EncodeChar c.toNat ++ utf8Encode t := by
        simp [utf8Encode]
      rw [henc, utf8DecodeF_encodeChar c.toNat (char_toNat_lt c),
        ih f (by simpa using hf), Char.ofNat_toNat]
      rfl

theorem length_le_utf8Encode (s : Str) : s.length ≤ (utf8Encode s).length := by
  induction s with
  | nil => simp [utf8Encode]
  | cons c t ih =>
    have henc : utf8Encode (c :: t) = utf8EncodeChar c.toNat ++ utf8Encode t := by
      simp [utf8Encode]
    have hpos : 1 ≤ (utf8EncodeChar c.toNat).length := by
      unfold utf8EncodeChar
      split
      · simp
      · split
        · simp
        · split <;> simp
    rw [henc]
    simp only [List.length_append, List.length_cons]
    omega

theorem utf8Decode_utf8Encode (s : Str) : utf8Decode (utf8Encode s) = some s :=
  utf8DecodeF_utf8Encode s (utf8Encode s).length (length_le_utf8Encode s)

theorem utf8Encode_inj {s1 s2 : Str} (h : utf8Encode s1 = utf8Encode s2) : s1 = s2 := by
  have h1 := utf8Decode_utf8Encode s1
  have h2 := utf8Decode_utf8Encode s2
  rw [h, h2] at h1
  exact (Option.some_inj.mp h1).symm

theorem utf8EncodeChar_lt (n : Nat) (hv : n < 1114112) :
    ∀ b ∈ utf8EncodeChar n, b < 256 := by
  intro b hb
  unfold utf8EncodeChar at hb
  split at hb
  · simp at hb; omega
  · split at hb
    · simp at hb; omega
    · split at hb
      · simp at hb; omega
      · simp at hb; omega

theorem utf8Encode_lt (s : Str) : ∀ b ∈ utf8Encode s, b < 256 := by
  intro b hb
  simp only [utf8Encode, List.mem_flatten, List.mem_map] at hb
  obtain ⟨l, ⟨c, _, rfl⟩, hbl⟩ := hb
  exact utf8EncodeChar_lt c.toNat (char_toNat_lt c) b hbl

/-! ### Base64 lemmas -/

theorem b64val_b64chr : ∀ n, n < 64 → b64val (b64chr n) = some n := by decide

theorem b64chr_ne_pad : ∀ n, n < 64 → b64chr n ≠ '=' := by decide

theorem b64decode_b64encode : ∀ (l : Bytes), (∀ b ∈ l, b < 256) →
    b64decode (b64encode l) = some l
  | [], _ => rfl
  | [a], h => by
    have ha : a < 256 := h a (by simp)
    have v1 : b64val (b64chr (a / 4)) = some (a / 4) := b64val_b64chr _ (by omega)
    have v2 : b64val (b64chr (a % 4 * 16)) = some (a % 4 * 16) := b64val_b64chr _ (by omega)
    simp only [b64encode, b64decode, v1, v2, if_pos rfl, and_self, if_pos]
    have : a / 4 * 4 + a % 4 * 16 / 16 = a := by omega
    rw [this]
  | [a, b], h => by
    have ha : a < 256 := h a (by simp)
    have hb : b < 256 := h b (by simp)
    have v1 : b64val (b64chr (a / 4)) = some (a / 4) := b64val_b64chr _ (by omega)
    have v2 : b64val (b64chr (a % 4 * 16 + b / 16)) = some (a % 4 * 16 + b / 16) :=
      b64val_b64chr _ (by omega)
    have v3 : b64val (b64chr (b % 16 * 4)) = some (b % 16 * 4) := b64val_b64chr _ (by omega)
    have n3 : b64chr (b % 16 * 4) ≠ '=' := b64chr_ne_pad _ (by omega)
    simp only [b64encode, b64decode, v1, v2, v3, if_neg n3, if_pos rfl]
    have e1 : a / 4 * 4 + (a % 4 * 16 + b / 16) / 16 = a := by omega
    have e2 : (a % 4 * 16 + b / 16) % 16 * 16 + b % 16 * 4 / 4 = b := by omega
    rw [e1, e2]
    simp only [if_true]
  | a :: b :: c :: r, h => by
    have ha : a < 256 := h a (by simp)
    have hb : b < 256 := h b (by simp)
    have hc : c < 256 := h c (by simp)
    have hr : ∀ x ∈ r, x < 256 := fun x hx => h x (by simp [hx])
    have v1 : b64val (b64chr (a / 4)) = some (a / 4) := b64val_b64chr _ (by omega)
    have v2 : b64val (b64chr (a % 4 * 16 + b / 16)) = some (a % 4 * 16 + b / 16) :=
      b64val_b64chr _ (by omega)
    have v3 : b64val (b64chr (b % 16 * 4 + c / 64)) = some (b % 16 * 4 + c / 64) :=
      b64val_b64chr _ (by omega)
    have v4 : b64val (b64chr (c % 64)) = some (c % 64) := b64val_b64chr _ (by omega)
    have n3 : b64chr (b % 16 * 4 + c / 64) ≠ '=' := b64chr_ne_pad _ (by omega)
    have n4 : b64chr (c % 64) ≠ '=' := b64chr_ne_pad _ (by omega)
    have ih := b64decode_b64encode r hr
    simp only [b64encode, b64decode, v1, v2, v3, v4, if_neg n3, if_neg n4, ih,
      Option.map_some]
    have e1 : a / 4 * 4 + (a % 4 * 16 + b / 16) / 16 = a := by omega
    have e2 : (a % 4 * 16 + b / 16) % 16 * 16 + (b % 16 * 4 + c / 64) / 4 = b := by omega
    have e3 : (b % 16 * 4 + c / 64) % 4 * 64 + c % 64 = c := by omega
    rw [e1, e2, e3]
    rfl

/-! ### Behaviour of the PBKDF2+AES-GCM variant -/

/-- The ideal KDF is injective in the password: distinct passwords derive
distinct keys. -/
theorem deriveKey_inj {k1 k2 : Str} (h : k1 ≠ k2) : deriveKey k1 ≠ deriveKey k2 := by
  intro heq
  apply h
  unfold deriveKey at heq
  exact utf8Encode_inj (List.append_cancel_right (List.append_cancel_right heq))

/-- Complete description of decrypting a freshly encrypted record under any
password: success with the original plaintext when the derived keys agree,
the single error otherwise. -/
theorem decryptText_encryptText (k1 k2 p : Str) (iv : Bytes) :
    decryptText k2 (encryptText k1 p iv) =
      if deriveKey k1 = deriveKey k2 then Except.ok p else Except.error badMsg := by
  unfold decryptText encryptText
  rw [parseRecord_jsonEnc]
  simp only [Option.some_bind]
  rw [gcmDecrypt_gcmEncrypt]
  by_cases h : deriveKey k1 = deriveKey k2
  · rw [if_pos ⟨h, rfl⟩, if_pos h]
    simp only [Option.some_bind, utf8Decode_utf8Encode, Option.elim_some]
  · rw [if_neg (by tauto), if_neg h]
    simp only [Option.none_bind, Option.elim_none]

/-- Decrypting a record whose ciphertext field has one byte overwritten with
a different value yields the error, never plaintext. -/
theorem decryptText_tampered_data (k p : Str) (iv : Bytes) (i x : Nat)
    (hi : i < (gcmEncrypt (deriveKey k) iv (utf8Encode p)).length)
    (hx : x ≠ (gcmEncrypt (deriveKey k) iv (utf8Encode p)).getD i 0) :
    decryptText k (jsonEnc iv ((gcmEncrypt (deriveKey k) iv (utf8Encode p)).set i x)) =
      Except.error badMsg := by
  unfold decryptText
  rw [parseRecord_jsonEnc]
  simp only [Option.some_bind]
  rw [gcm_tamper (deriveKey k) iv (utf8Encode p) i x hi hx]
  simp only [Option.none_bind, Option.elim_none]

/-- Decrypting a record whose nonce field has been altered yields the error,
never plaintext. -/
theorem decryptText_tampered_iv (k p : Str) (iv iv2 : Bytes) (h : iv ≠ iv2) :
    decryptText k (jsonEnc iv2 (gcmEncrypt (deriveKey k) iv (utf8Encode p))) =
      Except.error badMsg := by
  unfold decryptText
  rw [parseRecord_jsonEnc]
  simp only [Option.some_bind]
  rw [gcmDecrypt_gcmEncrypt, if_neg (by tauto)]
  simp only [Option.none_bind, Option.elim_none]

/-! ### Behaviour of the raw-key AES-GCM variant -/

theorem keyBytes1_eq {k1 k2 : Str} (h : padKey32 k1 = padKey32 k2) :
    keyBytes1 k1 = keyBytes1 k2 := by
  unfold keyBytes1
  rw [h]

theorem keyBytes1_ne {k1 k2 : Str} (h : padKey32 k1 ≠ padKey32 k2) :
    keyBytes1 k1 ≠ keyBytes1 k2 := by
  intro heq
  exact h (utf8Encode_inj heq)

/-- Complete description of the raw-key variant's decrypt-of-encrypt: the
original text comes back when the padded keys agree; otherwise the function
returns the failure marker followed by the unchanged record. -/
theorem decryptText1_encryptText1 (t k1 k2 : Str) (iv : Bytes) (h1 : k1 ≠ [])
    (h2 : k2 ≠ []) (hiv : iv.length = 12) (hb : ∀ b ∈ iv, b < 256) :
    decryptText1 (encryptText1 t k1 iv) k2 =
      if padKey32 k1 = padKey32 k2 then t
      else failMarker ++ encryptText1 t k1 iv := by
  have henc : encryptText1 t k1 iv =
      b64encode (iv ++ gcmEncrypt (keyBytes1 k1) iv (utf8Encode t)) := by
    unfold encryptText1
    rw [if_neg h1]
  have hbytes : ∀ b ∈ iv ++ gcmEncrypt (keyBytes1 k1) iv (utf8Encode t), b < 256 := by
    intro b hbm
    rcases List.mem_append.mp hbm with h | h
    · exact hb b h
    · exact gcmEncrypt_lt _ _ _ (utf8Encode_lt _) hb (utf8Encode_lt _) b h
  have hdec : b64decode (encryptText1 t k1 iv) =
      some (iv ++ gcmEncrypt (keyBytes1 k1) iv (utf8Encode t)) := by
    rw [henc, b64decode_b64encode _ hbytes]
  have htake : (iv ++ gcmEncrypt (keyBytes1 k1) iv (utf8Encode t)).take 12 = iv := by
    rw [← hiv, List.take_left]
  have hdrop : (iv ++ gcmEncrypt (keyBytes1 k1) iv (utf8Encode t)).drop 12 =
      gcmEncrypt (keyBytes1 k1) iv (utf8Encode t) := by
    rw [← hiv, List.drop_left]
  unfold decryptText1
  rw [if_neg h2, hdec]
  show (match gcmDecrypt (keyBytes1 k2)
      ((iv ++ gcmEncrypt (keyBytes1 k1) iv (utf8Encode t)).take 12)
      ((iv ++ gcmEncrypt (keyBytes1 k1) iv (utf8Encode t)).drop 12) with
    | none => failMarker ++ encryptText1 t k1 iv
    | some pt =>
      match utf8Decode pt with
      | none => failMarker ++ encryptText1 t k1 iv
      | some t2 => t2) = _
  rw [htake, hdrop, gcmDecrypt_gcmEncrypt]
  by_cases h : padKey32 k1 = padKey32 k2
  · rw [if_pos ⟨keyBytes1_eq h, rfl⟩, if_pos h]
    show (match utf8Decode (utf8Encode t) with
      | none => failMarker ++ encryptText1 t k1 iv
      | some t2 => t2) = t
    rw [utf8Decode_utf8Encode]
  · rw [if_neg (fun hc => keyBytes1_ne h hc.1), if_neg h]

/-! ### Claim theorems -/

/-- C1: for every plaintext `p` and password `k`, decrypting with the key
derived from `(k, salt)` the record produced by encrypting `p` under that
same derived key returns exactly `p` (PBKDF2+AES-GCM variant; `iv` stands
for the random nonce drawn inside `encryptText`). -/
theorem C1_round_trip (p k : Str) (iv : Bytes) :
    decryptText k (encryptText k p iv) = Except.ok p := by
  rw [decryptText_encryptText, if_pos rfl]

set_option maxRecDepth 8000 in
/-- C2 counterexample: in the raw-key AES-GCM variant
(`src/unnamed/part_001`), decrypting a record produced under key "a" while
supplying key "b" does not signal anything: `decryptText` RETURNS the
string "[Decryption Failed - Invalid Key?] " followed by the raw
ciphertext record, and with an empty key it returns the raw record
unchanged. -/
theorem C2_wrong_password_cex :
    decryptText1 (encryptText1 (("hi").toList) (("a").toList) ivZ) (("b").toList) =
      failMarker ++ encryptText1 (("hi").toList) (("a").toList) ivZ ∧
    decryptText1 (encryptText1 (("hi").toList) (("a").toList) ivZ) [] =
      encryptText1 (("hi").toList) (("a").toList) ivZ := by
  constructor
  · decide
  · decide

/-- C2 amended: in the PBKDF2+AES-GCM variant, decrypting under any
password whose derived key differs signals the single error
"Bad password or corrupted data"; in the raw-key AES-GCM variant, a
non-empty wrong key (one whose padded form differs) does not signal - the
function returns the marker string "[Decryption Failed - Invalid Key?] "
followed by the raw ciphertext record. -/
theorem C2_wrong_password :
    (∀ (p k1 k2 : Str) (iv : Bytes), k1 ≠ k2 →
      decryptText k2 (encryptText k1 p iv) = Except.error badMsg) ∧
    (∀ (t k1 k2 : Str) (iv : Bytes), k1 ≠ [] → k2 ≠ [] →
      padKey32 k1 ≠ padKey32 k2 → iv.length = 12 → (∀ b ∈ iv, b < 256) →
      decryptText1 (encryptText1 t k1 iv) k2 = failMarker ++ encryptText1 t k1 iv) := by
  constructor
  · intro p k1 k2 iv h
    rw [decryptText_encryptText, if_neg (deriveKey_inj h)]
  · intro t k1 k2 iv h1 h2 hpad hiv hb
    rw [decryptText1_encryptText1 t k1 k2 iv h1 h2 hiv hb, if_neg hpad]

set_option maxRecDepth 8000 in
/-- C2 witness: concrete wrong-password decryptions in both variants. -/
theorem C2_wrong_password_witness :
    decryptText (("hunter3").toList)
      (encryptText (("hunter2").toList) (("buy milk").toList) ivZ) =
      Except.error badMsg ∧
    decryptText1 (encryptText1 (("hi").toList) (("a").toList) ivZ) (("c").toList) =
      failMarker ++ encryptText1 (("hi").toList) (("a").toList) ivZ :=
  ⟨C2_wrong_password.1 (("buy milk").toList) (("hunter2").toList) (("hunter3").toList)
      ivZ (by decide),
    C2_wrong_password.2 (("hi").toList) (("a").toList) (("c").toList) ivZ
      (by decide) (by decide) (by decide) (by decide) (by decide)⟩

set_option maxRecDepth 8000 in
/-- C3 counterexample: in the AES-CBC variant of `src/app/routes/$id.tsx`,
flipping a single byte of a valid record's nonce (IV) field does NOT make
decryption fail: the valid record decrypts to "hi", and the record with
`iv16Z.set 0 1` in its nonce field decrypts successfully to the altered
plaintext "ii". -/
theorem C3_tamper_cex :
    decryptTextC (b64encode iv16Z ++ ':' ::
        b64encode (cbcEncrypt (utf8Encode pwC) iv16Z (utf8Encode (("hi").toList)))) pwC =
      some (("hi").toList) ∧
    decryptTextC (b64encode (iv16Z.set 0 1) ++ ':' ::
        b64encode (cbcEncrypt (utf8Encode pwC) iv16Z (utf8Encode (("hi").toList)))) pwC =
      some (("ii").toList) ∧
    (("ii").toList ≠ ("hi").toList) := by
  refine ⟨by decide, by decide, by decide⟩

/-- C3 amended: the AES-GCM variants do detect tampering - overwriting any
single byte of the ciphertext field with a different value, or altering the
nonce field, makes `decryptText` signal the error - but the AES-CBC variant
does not (see the counterexample: an IV-byte flip yields altered
plaintext). -/
theorem C3_tamper :
    (∀ (k p : Str) (iv : Bytes) (i x : Nat),
      i < (gcmEncrypt (deriveKey k) iv (utf8Encode p)).length →
      x ≠ (gcmEncrypt (deriveKey k) iv (utf8Encode p)).getD i 0 →
      decryptText k
        (jsonEnc iv ((gcmEncrypt (deriveKey k) iv (utf8Encode p)).set i x)) =
        Except.error badMsg) ∧
    (∀ (k p : Str) (iv iv2 : Bytes), iv ≠ iv2 →
      decryptText k (jsonEnc iv2 (gcmEncrypt (deriveKey k) iv (utf8Encode p))) =
        Except.error badMsg) := by
  exact ⟨decryptText_tampered_data, decryptText_tampered_iv⟩

set_option maxRecDepth 8000 in
/-- C3 witness: a concrete ciphertext-byte overwrite and a concrete
nonce change, both rejected by the PBKDF2+AES-GCM variant. -/
theorem C3_tamper_witness :
    decryptText (("k").toList)
      (jsonEnc ivZ
        ((gcmEncrypt (deriveKey (("k").toList)) ivZ (utf8Encode (("hi").toList))).set 0 77)) =
      Except.error badMsg ∧
    decryptText (("k").toList)
      (jsonEnc ivO (gcmEncrypt (deriveKey (("k").toList)) ivZ (utf8Encode (("hi").toList)))) =
      Except.error badMsg :=
  ⟨C3_tamper.1 (("k").toList) (("hi").toList) ivZ 0 77 (by decide) (by decide),
    C3_tamper.2 (("k").toList) (("hi").toList) ivZ ivO (by decide)⟩

set_option maxRecDepth 8000 in
/-- C4 counterexample: decrypting the malformed record "not json" yields
exactly the same error value as decrypting a valid record with a wrong
password, so malformed-record failures are NOT signalled as a distinct
`CorruptRecord` and are indistinguishable from wrong-password failures. -/
theorem C4_malformed_cex :
    decryptText (("x").toList) (("not json").toList) = Except.error badMsg ∧
    decryptText (("p2").toList) (encryptText (("p1").toList) (("n").toList) ivZ) =
      Except.error badMsg := by
  refine ⟨by decide, by decide⟩

/-- C4 amended: decrypting an unparseable record does not crash - it signals
the single error "Bad password or corrupted data" - but that is the same
error wrong-password decryption signals, so the two failure kinds are not
distinguishable and no separate `CorruptRecord` exists. -/
theorem C4_malformed :
    (∀ (k s : Str), parseRecord s = none →
      decryptText k s = Except.error badMsg) ∧
    (∀ (p k1 k2 : Str) (iv : Bytes), k1 ≠ k2 →
      decryptText k2 (encryptText k1 p iv) = Except.error badMsg) := by
  constructor
  · intro k s h
    unfold decryptText
    rw [h]
    rfl
  · intro p k1 k2 iv h
    rw [decryptText_encryptText, if_neg (deriveKey_inj h)]

set_option maxRecDepth 8000 in
/-- C4 witness: the malformed string "hello" and a concrete wrong-password
decryption both produce the single error. -/
theorem C4_malformed_witness :
    decryptText (("q").toList) (("hello").toList) = Except.error badMsg ∧
    decryptText (("r").toList) (encryptText (("q").toList) (("m").toList) ivZ) =
      Except.error badMsg :=
  ⟨C4_malformed.1 (("q").toList) (("hello").toList) (by decide),
    C4_malformed.2 (("m").toList) (("q").toList) (("r").toList) ivZ (by decide)⟩

set_option maxRecDepth 8000 in
/-- C5 counterexample: in `attemptUnlock` (`src/app/routes/$id.tsx`), a
batch of three notes - two encrypted under password "B", one under "A" -
unlocked with password "B" yields the single error "Incorrect password"
and NO decrypted notes: the one bad note aborts the whole batch, even
though the first note decrypts fine on its own. -/
theorem C5_batch_cex :
    attemptUnlockState (("B").toList)
      [(("1").toList, encryptText (("B").toList) (("one").toList) ivZ),
       (("2").toList, encryptText (("A").toList) (("two").toList) ivO),
       (("3").toList, encryptText (("B").toList) (("three").toList) ivF)] =
      Except.error (("Incorrect password").toList) ∧
    decryptText (("B").toList) (encryptText (("B").toList) (("one").toList) ivZ) =
      Except.ok (("one").toList) := by
  refine ⟨by decide, by decide⟩

/-- C5 amended: `handleDecryptAll` (`src/unnamed/part_001`) does report
per-note results - a note encrypted under a different key comes back as the
failure-marked string while the other notes decrypt to their plaintexts, and
the stored records are only read, never modified - but `attemptUnlock` in
`src/app/routes/$id.tsx` aborts the entire batch on the first failure (see
the counterexample). -/
theorem C5_batch :
    ∀ (kA kB tA tB1 tB2 iA iB1 iB2 : Str) (iv1 iv2 iv3 : Bytes),
      kA ≠ [] → kB ≠ [] → padKey32 kA ≠ padKey32 kB →
      iv1.length = 12 → (∀ b ∈ iv1, b < 256) →
      iv2.length = 12 → (∀ b ∈ iv2, b < 256) →
      iv3.length = 12 → (∀ b ∈ iv3, b < 256) →
      (handleDecryptAll kB
        [(iA, encryptText1 tA kA iv1),
         (iB1, encryptText1 tB1 kB iv2),
         (iB2, encryptText1 tB2 kB iv3)]).map (fun r => (r.1, r.2.1)) =
      [(iA, failMarker ++ encryptText1 tA kA iv1), (iB1, tB1), (iB2, tB2)] := by
  intro kA kB tA tB1 tB2 iA iB1 iB2 iv1 iv2 iv3 hA hB hpad h1l h1b h2l h2b h3l h3b
  unfold handleDecryptAll
  simp only [List.map_cons, List.map_nil]
  rw [decryptText1_encryptText1 tA kA kB iv1 hA hB h1l h1b, if_neg hpad,
    decryptText1_encryptText1 tB1 kB kB iv2 hB hB h2l h2b, if_pos rfl,
    decryptText1_encryptText1 tB2 kB kB iv3 hB hB h3l h3b, if_pos rfl]

set_option maxRecDepth 8000 in
/-- C5 witness: the concrete three-note batch under `handleDecryptAll`. -/
theorem C5_batch_witness :
    (handleDecryptAll (("B").toList)
      [(("1").toList, encryptText1 (("one").toList) (("A").toList) ivZ),
       (("2").toList, encryptText1 (("two").toList) (("B").toList) ivO),
       (("3").toList, encryptText1 (("three").toList) (("B").toList) ivF)]).map
        (fun r => (r.1, r.2.1)) =
      [(("1").toList, failMarker ++ encryptText1 (("one").toList) (("A").toList) ivZ),
       (("2").toList, ("two").toList), (("3").toList, ("three").toList)] :=
  C5_batch (("A").toList) (("B").toList) (("one").toList) (("two").toList)
    (("three").toList) (("1").toList) (("2").toList) (("3").toList) ivZ ivO ivF
    (by decide) (by decide) (by decide) (by decide) (by decide) (by decide)
    (by decide) (by decide) (by decide)

/-- C6 counterexample: no decision function can recognise encrypted records
without attempting a decode: any function that answers `true` on every
record produced by `encryptText` and `false` on every nonempty stored
plaintext is contradictory, because a record is itself a nonempty stored
string. -/
theorem C6_marker_cex :
    ¬ ∃ φ : Str → Bool,
      (∀ (k p : Str) (iv : Bytes), φ (encryptText k p iv) = true) ∧
      (∀ s : Str, s ≠ [] → φ s = false) := by
  rintro ⟨φ, h1, h2⟩
  have ha := h1 (("k").toList) (("p").toList) ivZ
  have hb := h2 (encryptText (("k").toList) (("p").toList) ivZ) (by decide)
  rw [ha] at hb
  exact Bool.noConfusion hb

set_option maxRecDepth 8000 in
/-- C6 amended: records carry no discriminator - an encrypted record is
itself a storable nonempty string, and in the raw-key variant records do
not even share a first character across nonces, so stored text cannot be
classified as encrypted or plaintext without attempting a decode. -/
theorem C6_no_marker :
    encryptText (("k").toList) (("p").toList) ivZ ≠ [] ∧
    (encryptText1 (("t").toList) (("k").toList) ivZ).headD 'Z' ≠
      (encryptText1 (("t").toList) (("k").toList) ivF).headD 'Z' := by
  refine ⟨by decide, by decide⟩

/-- C7: two encryptions of the same password and plaintext under distinct
nonces produce distinct records, and the nonce stored in the record is
exactly the randomly drawn one - it is never derived from the content
(PBKDF2+AES-GCM variant; `iv` stands for the fresh 12-byte output of
`crypto.getRandomValues` of one call). -/
theorem C7_nonce_fresh :
    (∀ (k p : Str) (iv1 iv2 : Bytes), iv1 ≠ iv2 →
      encryptText k p iv1 ≠ encryptText k p iv2) ∧
    (∀ (k p : Str) (iv : Bytes),
      (parseRecord (encryptText k p iv)).map Prod.fst = some iv) := by
  constructor
  · intro k p iv1 iv2 hne heq
    have h1 := parseRecord_jsonEnc iv1 (gcmEncrypt (deriveKey k) iv1 (utf8Encode p))
    have h2 := parseRecord_jsonEnc iv2 (gcmEncrypt (deriveKey k) iv2 (utf8Encode p))
    unfold encryptText at heq
    rw [heq, h2] at h1
    exact hne (congrArg Prod.fst (Option.some_inj.mp h1)).symm
  · intro k p iv
    unfold encryptText
    rw [parseRecord_jsonEnc]
    rfl

set_option maxRecDepth 8000 in
/-- C7 witness: two concrete nonces give two distinct records, and a
concrete record stores its nonce verbatim. -/
theorem C7_nonce_fresh_witness :
    encryptText (("k").toList) (("p").toList) ivZ ≠
      encryptText (("k").toList) (("p").toList) ivO ∧
    (parseRecord (encryptText (("k").toList) (("p").toList) ivZ)).map Prod.fst =
      some ivZ :=
  ⟨C7_nonce_fresh.1 (("k").toList) (("p").toList) ivZ ivO (by decide),
    C7_nonce_fresh.2 (("k").toList) (("p").toList) ivZ⟩

set_option maxRecDepth 8000 in
/-- C8 counterexample: `deriveKey` performs no validation - called with the
empty password it simply derives a key, and the whole
encrypt-then-decrypt pipeline under the empty password succeeds instead of
signalling `InvalidInput`. -/
theorem C8_empty_password_cex :
    decryptText ([] : Str) (encryptText ([] : Str) (("hi").toList) ivZ) =
      Except.ok (("hi").toList) := by
  decide

/-- C8 amended: `deriveKey` has no input validation and no `InvalidInput`
error exists: an empty password is accepted and a key is derived from it
with the fixed salt and iteration count like any other password, so every
plaintext round-trips under the empty password. -/
theorem C8_empty_password (p : Str) (iv : Bytes) :
    decryptText ([] : Str) (encryptText ([] : Str) p iv) = Except.ok p := by
  rw [decryptText_encryptText, if_pos rfl]

/-- C9: in the "age" variant (`src/unnamed/part_000`), the payload of every
record produced by `encryptWithAge` is the standard base64 encoding of the
text's UTF-8 bytes, so the original plaintext is recovered by base64- and
UTF-8-decoding alone - no key, password, or secret enters the
computation. -/
theorem C9_age_recoverable (t : Str) :
    agePayload (encryptWithAge t) = b64encode (utf8Encode t) ∧
    (b64decode (agePayload (encryptWithAge t))).bind utf8Decode = some t := by
  have hpay : agePayload (encryptWithAge t) = b64encode (utf8Encode t) := by
    unfold agePayload encryptWithAge
    rw [List.append_assoc, List.drop_left]
    have hlen : (b64encode (utf8Encode t) ++ ageFooter).length -
        ageFooter.length = (b64encode (utf8Encode t)).length := by
      simp only [List.length_append]
      omega
    rw [hlen, List.take_left]
  refine ⟨hpay, ?_⟩
  rw [hpay, b64decode_b64encode _ (utf8Encode_lt t)]
  simp only [Option.some_bind]
  exact utf8Decode_utf8Encode t

/-- C10: in the raw-key AES-GCM variant, keys are right-padded with '0' and
truncated to 32 characters before use, so two non-empty keys with the same
padded form (such as "abc" and "abc0") make `encryptText` and
`decryptText` behave identically, and a record encrypted under the first
decrypts successfully under the second. -/
theorem C10_pad_equiv (k1 k2 : Str) (h1 : k1 ≠ []) (h2 : k2 ≠ [])
    (hpad : padKey32 k1 = padKey32 k2) :
    (∀ (t : Str) (iv : Bytes), encryptText1 t k1 iv = encryptText1 t k2 iv) ∧
    (∀ s : Str, decryptText1 s k1 = decryptText1 s k2) ∧
    (∀ (t : Str) (iv : Bytes), iv.length = 12 → (∀ b ∈ iv, b < 256) →
      decryptText1 (encryptText1 t k1 iv) k2 = t) := by
  refine ⟨?_, ?_, ?_⟩
  · intro t iv
    unfold encryptText1
    rw [if_neg h1, if_neg h2, keyBytes1_eq hpad]
  · intro s
    unfold decryptText1
    rw [if_neg h1, if_neg h2, keyBytes1_eq hpad]
  · intro t iv hiv hb
    rw [decryptText1_encryptText1 t k1 k2 iv h1 h2 hiv hb, if_pos hpad]

set_option maxRecDepth 8000 in
/-- C10 witness: "abc" and "abc0" pad to the same 32-character key and are
interchangeable on concrete data. -/
theorem C10_pad_equiv_witness :
    encryptText1 (("hi").toList) (("abc").toList) ivZ =
      encryptText1 (("hi").toList) (("abc0").toList) ivZ ∧
    decryptText1 (("xyz").toList) (("abc").toList) =
      decryptText1 (("xyz").toList) (("abc0").toList) ∧
    decryptText1 (encryptText1 (("hi").toList) (("abc").toList) ivZ)
      (("abc0").toList) = ("hi").toList :=
  ⟨(C10_pad_equiv (("abc").toList) (("abc0").toList) (by decide) (by decide)
      (by decide)).1 (("hi").toList) ivZ,
    (C10_pad_equiv (("abc").toList) (("abc0").toList) (by decide) (by decide)
      (by decide)).2.1 (("xyz").toList),
    (C10_pad_equiv (("abc").toList) (("abc0").toList) (by decide) (by decide)
      (by decide)).2.2 (("hi").toList) ivZ (by decide) (by decide)⟩

end Pad
